import Mathlib

/-!
Shallow embedding of the Concurrent-Containers repository (src/include) and
proofs about the claims of its specification.

Every container is modelled from the C++ source, single-threaded: atomic
loads read the current state, CAS operations whose expected value matches
(which in a single-threaded execution is always the case unless stated
otherwise) succeed, and mutex sections run atomically.  Lock-free pops also
emit a trace of `Event`s recording, in program order, the shared-memory
operations the source performs, so that claims about the relative order of
the hazard-pointer protocol, the CASes and the value reads can be stated.

Pointers are modelled as `Nat` addresses into an explicit heap
(`List (Option node)`); a `none` entry is a deallocated (deleted) node, so
an immediate `delete` and a deferred `retire` are distinguishable.
-/

namespace CC

/-- Shared-memory operations a container operation performs, in program
order, as recorded by the traced models below. -/
inductive Event
  | loadHead      -- atomic load of the head pointer
  | setHazard     -- store of a hazard pointer (HazardPointerOwner::set)
  | recheckHead   -- re-load of head to validate the hazard
  | loadTail      -- atomic load of the tail pointer
  | loadNext      -- load of a node's next field
  | casTailHelp   -- helping CAS that advances a lagging tail
  | casHeadSucc   -- successful CAS on the head pointer
  | readValue     -- copy of a node's value field
  | clearHazard   -- store of null to the hazard pointer
  | retireNode    -- hp::retired_list().retire(node): deferred reclamation
  | deleteNode    -- immediate `delete node`
deriving DecidableEq, Repr

/-! ## Coarse (single-global-lock) containers: src/include/sgl_stack.h and
src/include/sgl_queue.h.  The mutex sections are atomic, so the model is the
underlying `std::vector` / `std::deque` of values. -/

/-- State of `SGLStack<T>`: the `data_` vector (back = top of stack). -/
structure SGLStack (T : Type) where
  data : List T
deriving DecidableEq, Repr

namespace SGLStack

/-- SGLStack::push — `data_.push_back(value)` under the lock. -/
def push {T : Type} (s : SGLStack T) (v : T) : SGLStack T :=
  { data := s.data ++ [v] }

/-- SGLStack::pop — under the lock: if `data_` is empty return false;
otherwise `out = data_.back(); data_.pop_back(); return true`.  The C++
out-parameter is modelled by threading `out` through: the returned middle
component is the value of `out` after the call. -/
def pop {T : Type} (s : SGLStack T) (out : T) : Bool × T × SGLStack T :=
  match s.data.getLast? with
  | none => (false, out, s)
  | some v => (true, v, { data := s.data.dropLast })

/-- SGLStack::empty. -/
def isEmpty {T : Type} (s : SGLStack T) : Bool := s.data.isEmpty

end SGLStack

/-- State of `SGLQueue<T>`: the `data_` deque (back = newest). -/
structure SGLQueue (T : Type) where
  data : List T
deriving DecidableEq, Repr

namespace SGLQueue

/-- SGLQueue::enqueue — `data_.push_back(value)` under the lock. -/
def enqueue {T : Type} (s : SGLQueue T) (v : T) : SGLQueue T :=
  { data := s.data ++ [v] }

/-- SGLQueue::dequeue — under the lock: if empty return false; otherwise
`out = data_.front(); data_.pop_front(); return true`. -/
def dequeue {T : Type} (s : SGLQueue T) (out : T) : Bool × T × SGLQueue T :=
  match s.data with
  | [] => (false, out, s)
  | v :: rest => (true, v, { data := rest })

/-- SGLQueue::empty. -/
def isEmpty {T : Type} (s : SGLQueue T) : Bool := s.data.isEmpty

end SGLQueue

/-! ## Hazard-pointer registry: src/include/hazard_pointers.h.
The global records are modelled by the list of their `ptr` fields (`none` =
null); retired nodes are `Nat` addresses. -/

namespace HP

/-- hp::collect_hazard_pointers: walk the records and push every non-null
`ptr` value. -/
def collect_hazard_pointers (recs : List (Option Nat)) : List Nat :=
  recs.filterMap id

/-- The `is_hazard` lambda inside RetiredList::scan:
`std::find(hp_values.begin(), hp_values.end(), p) != hp_values.end()`. -/
def is_hazard (hp_values : List Nat) (p : Nat) : Bool :=
  hp_values.contains p

/-- RetiredList::threshold_ (the source initialises it to 64). -/
def threshold : Nat := 64

/-- RetiredList::scan: snapshot the hazard pointers, then keep every
retired node that is protected (unless `force_all`) and delete the rest.
Returns (the new `retired_` vector, the deleted nodes, in order). -/
def scan (force_all : Bool) (recs : List (Option Nat)) (retired : List Nat) :
    List Nat × List Nat :=
  let hp_values := collect_hazard_pointers recs
  (retired.filter (fun p => !force_all && is_hazard hp_values p),
   retired.filter (fun p => !(!force_all && is_hazard hp_values p)))

/-- RetiredList::retire: `retired_.push_back(node); if (retired_.size() >=
threshold_) scan();`.  Returns (the new `retired_` vector, the deleted
nodes, whether scan was invoked). -/
def retire (recs : List (Option Nat)) (retired : List Nat) (node : Nat) :
    List Nat × List Nat × Bool :=
  let appended := retired ++ [node]
  if threshold ≤ appended.length then
    let (kept, deleted) := scan false recs appended
    (kept, deleted, true)
  else
    (appended, [], false)

/-- RetiredList::force_reclaim: `scan(true)`. -/
def force_reclaim (recs : List (Option Nat)) (retired : List Nat) :
    List Nat × List Nat :=
  scan true recs retired

end HP

/-! ## Spurious-wakeup-free condition variable: src/include/cv_nospurious.h.
The state is the value of the `seq_` counter.  A waiter is modelled by the
entry sample `s0` together with the list of `seq_` values it observes at
successive wakeups of the underlying condition variable (spurious or not);
the predicate lambda passed to `cv_.wait` decides at which wakeup the wait
returns. -/

namespace CV

/-- CVNoSpurious::notify_one — `seq_.fetch_add(1)` then wake one waiter. -/
def notify_one (seq : Nat) : Nat := seq + 1

/-- CVNoSpurious::notify_all — `seq_.fetch_add(1)` then wake all waiters. -/
def notify_all (seq : Nat) : Nat := seq + 1

/-- The predicate lambda inside CVNoSpurious::wait:
`seq_.load(acquire) != my_seq`. -/
def waitPred (s0 seqNow : Nat) : Bool := seqNow != s0

/-- CVNoSpurious::wait(lock): `my_seq` is the entry sample of `seq_`;
`wakeups` are the `seq_` values observed at successive wakeups of the
underlying CV.  `cv_.wait(lock, pred)` returns at the first wakeup whose
observation satisfies the predicate — `none` means the wait is still
blocked after all of `wakeups`. -/
def waitReturn (s0 : Nat) : List Nat → Option Nat
  | [] => none
  | s :: rest =>
      if waitPred s0 s then some 0 else (waitReturn s0 rest).map (· + 1)

end CV

/-! ## Flat combining: src/include/flat_combining_stack.h and
src/include/flat_combining_queue.h.  A container instance holds its
publication list `requests_` (here: the Request records themselves, in
registration order) and the underlying sequence `data_`.  The calling
thread's `tls_req_` is an index into the publication list and is carried
separately, since in the source it is thread-local state, not container
state. -/

namespace FC

/-- Request::Op of both flat-combining containers (PUSH also stands for the
queue's ENQ, POP for its DEQ). -/
inductive Op
  | NONE
  | PUSH
  | POP
deriving DecidableEq, Repr

/-- A Request record: atomic op-tag, value slot, success flag. -/
structure Request (T : Type) where
  op : Op
  value : T
  success : Bool
deriving DecidableEq, Repr

/-- A freshly constructed Request: `op{Op::NONE}`, `T value{}` (value
initialisation), `success{false}`. -/
def Request.fresh (T : Type) [Inhabited T] : Request T :=
  { op := .NONE, value := default, success := false }

/-- State of one flat-combining container instance. -/
structure St (T : Type) where
  reqs : List (Request T)
  data : List T
deriving DecidableEq, Repr

/-- A fresh container: no registered requests, empty sequence. -/
def St.init (T : Type) : St T := { reqs := [], data := [] }

/-- The calling thread's `tls_req_` (an index into `reqs`, or null). -/
structure Thread where
  tls : Option Nat
deriving DecidableEq, Repr

/-- A thread that has not yet used the container. -/
def Thread.fresh : Thread := { tls := none }

/-- get_request of both containers: on first use allocate a Request and
append it to this instance's publication list under the lock, caching the
pointer in `tls_req_`; afterwards return the cached pointer. -/
def get_request {T : Type} [Inhabited T] (s : St T) (th : Thread) :
    Nat × St T × Thread :=
  match th.tls with
  | some a => (a, s, th)
  | none =>
      (s.reqs.length,
       { s with reqs := s.reqs ++ [Request.fresh T] },
       { tls := some s.reqs.length })

/-- One step of FlatCombiningStack::combine on one Request: apply its
pending operation (stack discipline: push_back / back+pop_back) to `data`
and write the results back into the record. -/
def combineStepStack {T : Type} [Inhabited T] (r : Request T) (data : List T) :
    Request T × List T :=
  match r.op with
  | .PUSH => ({ r with op := .NONE }, data ++ [r.value])
  | .POP =>
      if data.isEmpty then
        ({ r with success := false, op := .NONE }, data)
      else
        ({ r with value := data.getLastD default, success := true, op := .NONE },
         data.dropLast)
  | .NONE => (r, data)

/-- One step of FlatCombiningQueue::combine on one Request: queue
discipline (push_back / front+pop_front). -/
def combineStepQueue {T : Type} [Inhabited T] (r : Request T) (data : List T) :
    Request T × List T :=
  match r.op with
  | .PUSH => ({ r with op := .NONE }, data ++ [r.value])
  | .POP =>
      match data with
      | [] => ({ r with success := false, op := .NONE }, data)
      | v :: rest => ({ r with value := v, success := true, op := .NONE }, rest)
  | .NONE => (r, data)

/-- The combiner loop: under the lock, walk every registered Request in
publication-list order, applying `step` to each. -/
def combineGo {T : Type} (step : Request T → List T → Request T × List T) :
    List (Request T) → List T → List (Request T) × List T
  | [], data => ([], data)
  | r :: rest, data =>
      let (r', data') := step r data
      let (rest', data'') := combineGo step rest data'
      (r' :: rest', data'')

/-- FlatCombiningStack::combine / FlatCombiningQueue::combine. -/
def combine {T : Type} (step : Request T → List T → Request T × List T)
    (s : St T) : St T :=
  let (reqs', data') := combineGo step s.reqs s.data
  { reqs := reqs', data := data' }

/-- Shared body of push/enqueue: write the operand, pre-set success to
true, publish the op-tag, then combine. -/
def pushOp {T : Type} [Inhabited T]
    (step : Request T → List T → Request T × List T)
    (s : St T) (th : Thread) (v : T) : St T × Thread :=
  let (a, s1, th1) := get_request s th
  let r := s1.reqs.getD a (Request.fresh T)
  let s2 := { s1 with reqs := s1.reqs.set a { r with value := v, success := true, op := .PUSH } }
  (combine step s2, th1)

/-- Shared body of pop/dequeue: pre-set success to false, publish the
op-tag, combine, then read back success/value from the own record. -/
def popOp {T : Type} [Inhabited T]
    (step : Request T → List T → Request T × List T)
    (s : St T) (th : Thread) (out : T) : Bool × T × St T × Thread :=
  let (a, s1, th1) := get_request s th
  let r := s1.reqs.getD a (Request.fresh T)
  let s2 := { s1 with reqs := s1.reqs.set a { r with success := false, op := .POP } }
  let s3 := combine step s2
  let r3 := s3.reqs.getD a (Request.fresh T)
  if r3.success then (true, r3.value, s3, th1) else (false, out, s3, th1)

/-- FlatCombiningStack::push. -/
def stackPush {T : Type} [Inhabited T] (s : St T) (th : Thread) (v : T) :
    St T × Thread :=
  pushOp combineStepStack s th v

/-- FlatCombiningStack::pop. -/
def stackPop {T : Type} [Inhabited T] (s : St T) (th : Thread) (out : T) :
    Bool × T × St T × Thread :=
  popOp combineStepStack s th out

/-- FlatCombiningQueue::enqueue. -/
def queueEnq {T : Type} [Inhabited T] (s : St T) (th : Thread) (v : T) :
    St T × Thread :=
  pushOp combineStepQueue s th v

/-- FlatCombiningQueue::dequeue. -/
def queueDeq {T : Type} [Inhabited T] (s : St T) (th : Thread) (out : T) :
    Bool × T × St T × Thread :=
  popOp combineStepQueue s th out

end FC

/-! ## Two flat-combining stack instances sharing one thread.  The source
declares `thread_local static Request* tls_req_;` as a static member of the
class template, so every instance of `FlatCombiningStack<T>` shares the one
thread-local pointer.  The Request objects live on the global heap (`store`,
indexed by address); each instance's `requests_` holds addresses. -/

namespace FCWorld

/-- Two `FlatCombiningStack<T>` instances A and B, the allocated Request
objects, and the single thread's shared `tls_req_`. -/
structure World (T : Type) where
  store : List (FC.Request T)
  alist : List Nat
  adata : List T
  blist : List Nat
  bdata : List T
  tls : Option Nat
deriving DecidableEq, Repr

/-- Fresh world: both instances empty, no Request allocated, null tls. -/
def World.init (T : Type) : World T :=
  { store := [], alist := [], adata := [], blist := [], bdata := [], tls := none }

/-- get_request called on instance A: when `tls_req_` is null, allocate a
Request, link it into A's publication list, cache it; otherwise return the
cached pointer (whichever instance registered it). -/
def getRequestA {T : Type} [Inhabited T] (w : World T) : Nat × World T :=
  match w.tls with
  | some a => (a, w)
  | none =>
      (w.store.length,
       { w with store := w.store ++ [FC.Request.fresh T],
                alist := w.alist ++ [w.store.length],
                tls := some w.store.length })

/-- get_request called on instance B. -/
def getRequestB {T : Type} [Inhabited T] (w : World T) : Nat × World T :=
  match w.tls with
  | some a => (a, w)
  | none =>
      (w.store.length,
       { w with store := w.store ++ [FC.Request.fresh T],
                blist := w.blist ++ [w.store.length],
                tls := some w.store.length })

/-- The combiner loop of one instance: walk that instance's publication
list, applying the stack step to each record it holds. -/
def combineList {T : Type} [Inhabited T] :
    List Nat → List (FC.Request T) → List T → List (FC.Request T) × List T
  | [], store, data => (store, data)
  | a :: rest, store, data =>
      let r := store.getD a (FC.Request.fresh T)
      let (r', data') := FC.combineStepStack r data
      combineList rest (store.set a r') data'

/-- FlatCombiningStack::push on instance A. -/
def pushA {T : Type} [Inhabited T] (w : World T) (v : T) : World T :=
  let (a, w1) := getRequestA w
  let r := w1.store.getD a (FC.Request.fresh T)
  let store2 := w1.store.set a { r with value := v, success := true, op := .PUSH }
  let (store3, data3) := combineList w1.alist store2 w1.adata
  { w1 with store := store3, adata := data3 }

/-- FlatCombiningStack::push on instance B. -/
def pushB {T : Type} [Inhabited T] (w : World T) (v : T) : World T :=
  let (a, w1) := getRequestB w
  let r := w1.store.getD a (FC.Request.fresh T)
  let store2 := w1.store.set a { r with value := v, success := true, op := .PUSH }
  let (store3, data3) := combineList w1.blist store2 w1.bdata
  { w1 with store := store3, bdata := data3 }

end FCWorld

/-! ## Treiber stack: src/include/treiber_stack.h.  Nodes live in an
explicit heap; `none` entries are deleted nodes.  Single-threaded, the CAS
loops succeed on their first iteration and the hazard re-validation of head
always passes, so push and pop are straight-line; the shared-memory
operations they perform are recorded in the emitted trace. -/

/-- TreiberStack::Node / EliminationStack::Node: `T value; Node* next;`. -/
structure SNode (T : Type) where
  value : T
  next : Option Nat
deriving DecidableEq, Repr

/-- Dereference of a node pointer: the heap entry at address `a`
(`none` when the address is out of range or the node was deleted). -/
def getNode {T : Type} (heap : List (Option (SNode T))) (a : Nat) :
    Option (SNode T) :=
  heap.getD a none

namespace Treiber

/-- State of `TreiberStack<T>`: the node heap and the atomic `head_`. -/
structure St (T : Type) where
  heap : List (Option (SNode T))
  head : Option Nat
deriving DecidableEq, Repr

/-- A fresh TreiberStack: `head_{nullptr}`. -/
def St.init (T : Type) : St T := { heap := [], head := none }

/-- TreiberStack::push: allocate a node whose next is the current head and
CAS head to it (single-threaded the CAS succeeds at once). -/
def push {T : Type} (s : St T) (v : T) : St T :=
  { heap := s.heap ++ [some { value := v, next := s.head }],
    head := some s.heap.length }

/-- TreiberStack::pop: load head (acquire); if null clear the hazard and
return false.  Otherwise protect the node, re-validate head, read next,
CAS head to next (single-threaded: validation passes and the CAS
succeeds), then copy the value into out, clear the hazard and retire the
old head — retired, not deleted, so its heap entry stays. -/
def pop {T : Type} (s : St T) (out : T) : Bool × T × St T × List Event :=
  match s.head with
  | none => (false, out, s, [.loadHead, .clearHazard])
  | some a =>
      match getNode s.heap a with
      | none => (false, out, s, [.loadHead])  -- dangling head: unreachable
      | some n =>
          (true, n.value, { s with head := n.next },
           [.loadHead, .setHazard, .recheckHead, .loadNext, .casHeadSucc,
            .readValue, .clearHazard, .retireNode])

/-- TreiberStack::empty: `head_.load(acquire) == nullptr`. -/
def isEmpty {T : Type} (s : St T) : Bool := s.head = none

end Treiber

/-! ## Elimination stack: src/include/elimination_stack.h.  Central Treiber
stack plus the 16-slot elimination arena.  Single-threaded the central CAS
never fails, so `cas_failures` never reaches CAS_THRESHOLD and push takes
the Treiber fast path; pop enters `try_elim_pop` only when the central head
is null.  The thread-local RNG is modelled by the list `picks` of slot
indices it would produce. -/

namespace Elim

/-- EliminationStack::ELIM_ARRAY_SIZE. -/
def ELIM_ARRAY_SIZE : Nat := 16

/-- EliminationStack::ELIM_TRIES. -/
def ELIM_TRIES : Nat := 4

/-- State of `EliminationStack<T>`: node heap, central `head_`, and the
`arena_` of 16 slots each holding null or a node address. -/
structure St (T : Type) where
  heap : List (Option (SNode T))
  head : Option Nat
  arena : List (Option Nat)
deriving DecidableEq, Repr

/-- A fresh EliminationStack: null head, every arena slot null. -/
def St.init (T : Type) : St T :=
  { heap := [], head := none, arena := List.replicate ELIM_ARRAY_SIZE none }

/-- EliminationStack::push, single-threaded: the first head-CAS succeeds,
so the node is linked without elimination ever being attempted. -/
def push {T : Type} (s : St T) (v : T) : St T :=
  { s with heap := s.heap ++ [some { value := v, next := s.head }],
           head := some s.heap.length }

/-- Lines 50–57 of EliminationStack::try_elim_push: a pusher's node is
CASed into an empty arena slot (the offer succeeding), leaving the pusher
spinning — the in-flight eliminated-push state. -/
def offerPush {T : Type} (s : St T) (idx : Nat) (v : T) : St T :=
  { s with heap := s.heap ++ [some { value := v, next := none }],
           arena := s.arena.set idx (some s.heap.length) }

/-- EliminationStack::try_elim_pop: up to ELIM_TRIES random slots are
exchanged to null; the first non-null node obtained is consumed — its
value is copied into out and the node is deleted at once. -/
def tryElimPopGo {T : Type} :
    List Nat → St T → T → Bool × T × St T
  | [], s, out => (false, out, s)
  | idx :: rest, s, out =>
      let cur := s.arena.getD idx none
      let s1 := { s with arena := s.arena.set idx none }  -- exchange(nullptr)
      match cur with
      | some a =>
          match getNode s1.heap a with
          | some n => (true, n.value, { s1 with heap := s1.heap.set a none })
          | none => (false, out, s1)  -- dangling arena entry: unreachable
      | none => tryElimPopGo rest s1 out

/-- EliminationStack::pop, single-threaded: load head; when null, try the
arena before reporting empty.  Otherwise the central Treiber path runs
with no hazard pointer: read `old_head->next` directly, CAS head
(single-threaded it succeeds), copy the value into out, then `delete
old_head` immediately. -/
def pop {T : Type} (picks : List Nat) (s : St T) (out : T) :
    Bool × T × St T × List Event :=
  match s.head with
  | none =>
      let (b, o, s1) := tryElimPopGo (picks.take ELIM_TRIES) s out
      (b, o, s1, [.loadHead])
  | some a =>
      match getNode s.heap a with
      | none => (false, out, s, [.loadHead])  -- dangling head: unreachable
      | some n =>
          (true, n.value,
           { s with head := n.next, heap := s.heap.set a none },
           [.loadHead, .loadNext, .casHeadSucc, .readValue, .deleteNode])

/-- EliminationStack::empty: false as soon as the central head is non-null
or some arena slot is non-null, true otherwise. -/
def isEmpty {T : Type} (s : St T) : Bool :=
  if s.head ≠ none then false
  else s.arena.all (fun slot => slot = none)

end Elim

/-! ## Michael–Scott queue: src/include/ms_queue.h.  Nodes carry an
`std::optional<T>` value (`none` for the dummy sentinel).  The helping
loops are modelled with explicit fuel; single-threaded (our well-formed
states) they decide on the first iteration.  The dequeue records its
shared-memory operations in a trace. -/

/-- MSQueue::Node: `std::atomic<Node*> next; std::optional<T> value;`. -/
structure MSNode (T : Type) where
  next : Option Nat
  value : Option T
deriving DecidableEq, Repr

/-- Dereference of an MSQueue node pointer. -/
def getMSNode {T : Type} (heap : List (Option (MSNode T))) (a : Nat) :
    Option (MSNode T) :=
  heap.getD a none

namespace MSQ

/-- State of `MSQueue<T>`: node heap and the atomic `head_` / `tail_`. -/
structure St (T : Type) where
  heap : List (Option (MSNode T))
  head : Nat
  tail : Nat
deriving DecidableEq, Repr

/-- MSQueue::MSQueue(): one dummy node; head = tail = dummy. -/
def St.init (T : Type) : St T :=
  { heap := [some { next := none, value := none }], head := 0, tail := 0 }

/-- The enqueue retry loop, after the new node (at `newaddr`) has been
allocated: load tail and its next; if next is null, CAS `tail->next` to
the new node and swing tail (single-threaded both succeed); if next is
non-null, help advance tail and retry. -/
def enqueueLoop {T : Type} (newaddr : Nat) : Nat → St T → St T
  | 0, s => s  -- fuel exhausted: unreachable from well-formed states
  | fuel + 1, s =>
      match getMSNode s.heap s.tail with
      | none => s  -- dangling tail: unreachable
      | some tn =>
          match tn.next with
          | none =>
              { s with heap := s.heap.set s.tail (some { tn with next := some newaddr }),
                       tail := newaddr }
          | some x => enqueueLoop newaddr fuel { s with tail := x }

/-- MSQueue::enqueue: allocate `Node(value)` (next = null), then run the
retry loop. -/
def enqueue {T : Type} (s : St T) (v : T) : St T :=
  let newaddr := s.heap.length
  let s1 := { s with heap := s.heap ++ [some { next := none, value := some v }] }
  enqueueLoop newaddr (s1.heap.length + 1) s1

/-- The dequeue retry loop: load head, install the hazard, load tail and
`head->next`, re-validate head (single-threaded it passes).  Null next
means empty.  `head == tail` with non-null next means tail lags: help and
retry.  Otherwise CAS head to next (it succeeds), and only then copy
`next->value` into out, clear the hazard and retire the old head. -/
def dequeueLoop {T : Type} : Nat → St T → T → Bool × T × St T × List Event
  | 0, s, out => (false, out, s, [])  -- fuel exhausted: unreachable
  | fuel + 1, s, out =>
      let pre : List Event :=
        [.loadHead, .setHazard, .loadTail, .loadNext, .recheckHead]
      match getMSNode s.heap s.head with
      | none => (false, out, s, pre)  -- dangling head: unreachable
      | some hn =>
          match hn.next with
          | none => (false, out, s, pre)  -- queue is empty
          | some x =>
              if s.head = s.tail then
                let (b, o, s', tr) := dequeueLoop fuel { s with tail := x } out
                (b, o, s', pre ++ [.casTailHelp] ++ tr)
              else
                match getMSNode s.heap x with
                | none => (false, out, s, pre)  -- dangling next: unreachable
                | some xn =>
                    let s' := { s with head := x }
                    match xn.value with
                    | none => (false, out, s', pre ++ [.casHeadSucc])  -- unreachable
                    | some v =>
                        (true, v, s',
                         pre ++ [.casHeadSucc, .readValue, .clearHazard, .retireNode])

/-- MSQueue::dequeue. -/
def dequeue {T : Type} (s : St T) (out : T) : Bool × T × St T × List Event :=
  dequeueLoop (s.heap.length + 1) s out

/-- MSQueue::empty: `head_->next == nullptr`. -/
def isEmpty {T : Type} (s : St T) : Bool :=
  match getMSNode s.heap s.head with
  | some hn => hn.next = none
  | none => true  -- dangling head: unreachable

end MSQ

/-! ## Test-harness combinators and abstraction invariants. -/

/-- Run `n` successive pops (each with a default-initialised out variable,
as the unit tests do), collecting the (returned flag, out value) pairs. -/
def runPops {St T : Type} [Inhabited T] (pop : St → T → Bool × T × St) :
    Nat → St → List (Bool × T) × St
  | 0, s => ([], s)
  | n + 1, s =>
      let (b, v, s') := pop s default
      let (rest, s'') := runPops pop n s'
      ((b, v) :: rest, s'')

/-- Run a sequence of pushes left to right. -/
def pushAll {St T : Type} (push : St → T → St) (s : St) : List T → St
  | [] => s
  | v :: vs => pushAll push (push s v) vs

/-- TreiberStack::pop without its event trace. -/
def Treiber.popB {T : Type} (s : Treiber.St T) (out : T) :
    Bool × T × Treiber.St T :=
  let r := Treiber.pop s out
  (r.1, r.2.1, r.2.2.1)

/-- EliminationStack::pop without its event trace. -/
def Elim.popB {T : Type} (picks : List Nat) (s : Elim.St T) (out : T) :
    Bool × T × Elim.St T :=
  let r := Elim.pop picks s out
  (r.1, r.2.1, r.2.2.1)

/-- MSQueue::dequeue without its event trace. -/
def MSQ.dequeueB {T : Type} (s : MSQ.St T) (out : T) :
    Bool × T × MSQ.St T :=
  let r := MSQ.dequeue s out
  (r.1, r.2.1, r.2.2.1)

/-- FlatCombiningStack::push acting on the (container, thread) pair. -/
def FC.stackPushP {T : Type} [Inhabited T] (p : FC.St T × FC.Thread) (v : T) :
    FC.St T × FC.Thread :=
  FC.stackPush p.1 p.2 v

/-- FlatCombiningStack::pop acting on the (container, thread) pair. -/
def FC.stackPopP {T : Type} [Inhabited T] (p : FC.St T × FC.Thread) (out : T) :
    Bool × T × (FC.St T × FC.Thread) :=
  let r := FC.stackPop p.1 p.2 out
  (r.1, r.2.1, r.2.2.1, r.2.2.2)

/-- FlatCombiningQueue::enqueue acting on the (container, thread) pair. -/
def FC.queueEnqP {T : Type} [Inhabited T] (p : FC.St T × FC.Thread) (v : T) :
    FC.St T × FC.Thread :=
  FC.queueEnq p.1 p.2 v

/-- FlatCombiningQueue::dequeue acting on the (container, thread) pair. -/
def FC.queueDeqP {T : Type} [Inhabited T] (p : FC.St T × FC.Thread) (out : T) :
    Bool × T × (FC.St T × FC.Thread) :=
  let r := FC.queueDeq p.1 p.2 out
  (r.1, r.2.1, r.2.2.1, r.2.2.2)

/-- The heap-rooted linked list of a Treiber-style stack represents the
value list `ls` (top first).  The side condition `b < a` (each node was
allocated after the node it points to) makes the chain acyclic, so a node
can be deleted once it is unlinked without disturbing the rest. -/
inductive StackRepr {T : Type} (heap : List (Option (SNode T))) :
    Option Nat → List T → Prop
  | nil : StackRepr heap none []
  | cons (a : Nat) (n : SNode T) (ls : List T) :
      heap.getD a none = some n →
      (∀ b, n.next = some b → b < a) →
      StackRepr heap n.next ls →
      StackRepr heap (some a) (n.value :: ls)

/-- Well-formed single-threaded EliminationStack state: the central list
represents `ls` and every arena slot is null (no elimination in flight). -/
def Elim.WF {T : Type} (s : Elim.St T) (ls : List T) : Prop :=
  StackRepr s.heap s.head ls ∧ ∀ x ∈ s.arena, x = none

/-- The chain from node `a` of an MSQueue heap holds the value list `ls`
(`a` itself is the dummy; values sit in the nodes after it).  Addresses
strictly increase along the chain (nodes are allocated in link order), so
the chain is acyclic and the final node is not an inner node. -/
inductive QRepr {T : Type} (heap : List (Option (MSNode T))) :
    Nat → List T → Prop
  | last (a : Nat) (n : MSNode T) :
      heap.getD a none = some n → n.next = none → QRepr heap a []
  | cons (a : Nat) (n : MSNode T) (b : Nat) (nb : MSNode T) (v : T) (ls : List T) :
      heap.getD a none = some n → n.next = some b → a < b →
      heap.getD b none = some nb → nb.value = some v →
      QRepr heap b ls → QRepr heap a (v :: ls)

/-- Node `t` is the final node of the chain rooted at `a`. -/
inductive QLast {T : Type} (heap : List (Option (MSNode T))) :
    Nat → Nat → Prop
  | refl (a : Nat) (n : MSNode T) :
      heap.getD a none = some n → n.next = none → QLast heap a a
  | step (a : Nat) (n : MSNode T) (b t : Nat) :
      heap.getD a none = some n → n.next = some b → a < b →
      QLast heap b t → QLast heap a t

/-- Well-formed single-threaded MSQueue state holding the value list `ls`:
the chain from `head_` (the dummy) represents `ls` and `tail_` points at
the final node (single-threaded, the best-effort tail swing in enqueue
always succeeds, so the tail never lags). -/
def MSQ.WF {T : Type} (s : MSQ.St T) (ls : List T) : Prop :=
  QRepr s.heap s.head ls ∧ QLast s.heap s.head s.tail

/-- Single-threaded flat-combining instance after the one thread's first
operation: the thread's record is registered at index 0 of the publication
list, idle (op NONE), and the underlying sequence is `ds`. -/
def FC.Reg {T : Type} (p : FC.St T × FC.Thread) (ds : List T) : Prop :=
  p.2.tls = some 0 ∧
  (∃ w b, p.1.reqs = [{ op := .NONE, value := w, success := b }]) ∧
  p.1.data = ds

/-! ## Helper lemmas on heap reads (`List.getD _ none`). -/

theorem getD_some_lt {α : Type} {l : List (Option α)} {a : Nat} {n : α}
    (h : l.getD a none = some n) : a < l.length := by
  by_contra hc
  simp [List.getD, List.getElem?_eq_none (Nat.le_of_not_lt hc)] at h

theorem getD_append_lt {α : Type} {l : List (Option α)} (x : Option α) {a : Nat}
    (h : a < l.length) : (l ++ [x]).getD a none = l.getD a none := by
  simp [List.getD, List.getElem?_append_left h]

theorem getD_append_len {α : Type} (l : List (Option α)) (x : Option α) :
    (l ++ [x]).getD l.length none = x := by
  simp [List.getD, List.getElem?_concat_length]

theorem getD_set_ne {α : Type} {l : List (Option α)} (x : Option α) {i j : Nat}
    (h : i ≠ j) : (l.set i x).getD j none = l.getD j none := by
  simp [List.getD, List.getElem?_set_ne h]

theorem getD_set_self {α : Type} {l : List (Option α)} (x : Option α) {i : Nat}
    (h : i < l.length) : (l.set i x).getD i none = x := by
  simp [List.getD, List.getElem?_set_self, h]

theorem getD_all_none {α : Type} {l : List (Option α)}
    (h : ∀ x ∈ l, x = none) (i : Nat) : l.getD i none = none := by
  induction l generalizing i with
  | nil => simp [List.getD]
  | cons y ys ih =>
      cases i with
      | zero => simpa [List.getD] using h y (by simp)
      | succ k =>
          simpa [List.getD] using ih (fun x hx => h x (by simp [hx])) k

theorem all_none_set {α : Type} {l : List (Option α)}
    (h : ∀ x ∈ l, x = none) (i : Nat) : ∀ x ∈ l.set i none, x = none := by
  intro x hx
  rcases List.mem_or_eq_of_mem_set hx with hmem | rfl
  · exact h x hmem
  · rfl

/-! ## Lemmas about the coarse containers. -/

theorem sgl_stack_pushAll {T : Type} (ds vs : List T) :
    pushAll SGLStack.push ⟨ds⟩ vs = ⟨ds ++ vs⟩ := by
  induction vs generalizing ds with
  | nil => simp [pushAll]
  | cons v vs ih =>
      show pushAll SGLStack.push ⟨ds ++ [v]⟩ vs = _
      rw [ih (ds ++ [v])]
      simp

theorem runPops_succ {St T : Type} [Inhabited T] (pop : St → T → Bool × T × St)
    (n : Nat) (s : St) :
    (runPops pop (n + 1) s).1
      = ((pop s default).1, (pop s default).2.1)
          :: (runPops pop n (pop s default).2.2).1 := by
  rcases hp : pop s default with ⟨b, v, s'⟩
  simp [runPops, hp]

theorem sgl_stack_drain {T : Type} [Inhabited T] (vs : List T) :
    (runPops SGLStack.pop (vs.length + 1) ⟨vs⟩).1
      = vs.reverse.map (fun v => (true, v)) ++ [(false, (default : T))] := by
  induction vs using List.reverseRecOn with
  | nil => rfl
  | append_singleton ys y ih =>
      have hpop : SGLStack.pop (⟨ys ++ [y]⟩ : SGLStack T) default = (true, y, ⟨ys⟩) := by
        simp [SGLStack.pop, List.getLast?_concat, List.dropLast_concat]
      have hlen : (ys ++ [y]).length + 1 = (ys.length + 1) + 1 := by simp
      rw [hlen, runPops_succ, hpop, ih]
      simp

theorem sgl_queue_pushAll {T : Type} (ds vs : List T) :
    pushAll SGLQueue.enqueue ⟨ds⟩ vs = ⟨ds ++ vs⟩ := by
  induction vs generalizing ds with
  | nil => simp [pushAll]
  | cons v vs ih =>
      show pushAll SGLQueue.enqueue ⟨ds ++ [v]⟩ vs = _
      rw [ih (ds ++ [v])]
      simp

theorem sgl_queue_drain {T : Type} [Inhabited T] (vs : List T) :
    (runPops SGLQueue.dequeue (vs.length + 1) ⟨vs⟩).1
      = vs.map (fun v => (true, v)) ++ [(false, (default : T))] := by
  induction vs with
  | nil => rfl
  | cons v vs ih =>
      have hpop : SGLQueue.dequeue (⟨v :: vs⟩ : SGLQueue T) default = (true, v, ⟨vs⟩) := rfl
      rw [show (v :: vs).length + 1 = (vs.length + 1) + 1 from rfl, runPops_succ, hpop, ih]
      simp

/-! ## Lemmas about the Michael–Scott queue. -/

theorem qlast_last {T : Type} {heap : List (Option (MSNode T))} {a t : Nat}
    (h : QLast heap a t) :
    ∃ tn, heap.getD t none = some tn ∧ tn.next = none := by
  induction h with
  | refl a n hget hnext => exact ⟨n, hget, hnext⟩
  | step a n b t hget hnext hlt _ ih => exact ih

theorem qlast_next {T : Type} {heap : List (Option (MSNode T))}
    {a t b : Nat} {n : MSNode T} (hq : QLast heap a t)
    (hget : heap.getD a none = some n) (hnext : n.next = some b) :
    QLast heap b t := by
  cases hq with
  | refl a2 n2 hg hn =>
      rw [hget] at hg
      obtain rfl : n = n2 := Option.some.inj hg
      rw [hnext] at hn
      cases hn
  | step a2 n2 b2 t2 hg hn hlt hq2 =>
      rw [hget] at hg
      obtain rfl : n = n2 := Option.some.inj hg
      rw [hnext] at hn
      obtain rfl : b2 = b := (Option.some.inj hn).symm
      exact hq2

theorem qrepr_cons_inv {T : Type} {heap : List (Option (MSNode T))}
    {a : Nat} {v : T} {ls : List T} (h : QRepr heap a (v :: ls)) :
    ∃ n b nb, heap.getD a none = some n ∧ n.next = some b ∧ a < b ∧
      heap.getD b none = some nb ∧ nb.value = some v ∧ QRepr heap b ls := by
  cases h with
  | cons a n b nb v ls hget hnext hlt hgetb hval hrest =>
      exact ⟨n, b, nb, hget, hnext, hlt, hgetb, hval, hrest⟩

theorem qrepr_nil_inv {T : Type} {heap : List (Option (MSNode T))}
    {a : Nat} (h : QRepr heap a ([] : List T)) :
    ∃ n, heap.getD a none = some n ∧ n.next = none := by
  cases h with
  | last a n hget hnext => exact ⟨n, hget, hnext⟩

theorem snoc_read_other {T : Type} {heap : List (Option (MSNode T))} {t : Nat}
    (newEntry tEntry : Option (MSNode T)) {a : Nat}
    (ha : a < heap.length) (hat : a ≠ t) :
    ((heap ++ [newEntry]).set t tEntry).getD a none = heap.getD a none := by
  rw [getD_set_ne tEntry (Ne.symm hat), getD_append_lt newEntry ha]

theorem qlast_eq_of_next_none {T : Type} {heap : List (Option (MSNode T))}
    {a t : Nat} {n : MSNode T} (hq : QLast heap a t)
    (hget : heap.getD a none = some n) (hnext : n.next = none) : a = t := by
  cases hq with
  | refl _ _ _ _ => rfl
  | step _ n' b' _ hg hn _ _ =>
      rw [hget] at hg
      obtain rfl : n = n' := Option.some.inj hg
      rw [hnext] at hn
      cases hn

theorem qrepr_snoc {T : Type} {heap : List (Option (MSNode T))} {t : Nat}
    {tn : MSNode T} (v : T) (hgt : heap.getD t none = some tn)
    (hnt : tn.next = none) {a : Nat} {ls : List T} (h : QRepr heap a ls) :
    QLast heap a t →
    QRepr ((heap ++ [some (⟨none, some v⟩ : MSNode T)]).set t
      (some (⟨some heap.length, tn.value⟩ : MSNode T))) a (ls ++ [v]) := by
  induction h with
  | last a n hget hnext =>
      intro hq
      have hat : a = t := qlast_eq_of_next_none hq hget hnext
      subst hat
      have htlen : a < heap.length := getD_some_lt hgt
      have htlen2 : a < (heap ++ [some (⟨none, some v⟩ : MSNode T)]).length := by
        simp
        omega
      have hnew : ((heap ++ [some (⟨none, some v⟩ : MSNode T)]).set a
          (some (⟨some heap.length, tn.value⟩ : MSNode T))).getD heap.length none
          = some (⟨none, some v⟩ : MSNode T) := by
        rw [getD_set_ne _ (Nat.ne_of_lt htlen), getD_append_len]
      exact QRepr.cons a ⟨some heap.length, tn.value⟩ heap.length ⟨none, some v⟩ v []
        (getD_set_self _ htlen2) rfl htlen hnew rfl
        (QRepr.last heap.length ⟨none, some v⟩ hnew rfl)
  | cons a n b nb v' ls hget hnext hlt hgetb hval hrest ih =>
      intro hq
      have hq' : QLast heap b t := qlast_next hq hget hnext
      have hat : a ≠ t := by
        intro he
        rw [he, hgt] at hget
        obtain rfl : tn = n := Option.some.inj hget
        rw [hnt] at hnext
        cases hnext
      have hgetA : ((heap ++ [some (⟨none, some v⟩ : MSNode T)]).set t
          (some (⟨some heap.length, tn.value⟩ : MSNode T))).getD a none = some n := by
        rw [snoc_read_other _ _ (getD_some_lt hget) hat]
        exact hget
      by_cases hbt : b = t
      · have htn : tn = nb := by
          rw [hbt] at hgetb
          rw [hgetb] at hgt
          exact (Option.some.inj hgt).symm
        refine QRepr.cons a n b ⟨some heap.length, tn.value⟩ v' (ls ++ [v])
          hgetA hnext hlt ?_ ?_ (ih hq')
        · rw [hbt]
          refine getD_set_self _ ?_
          have := getD_some_lt hgt
          simp
          omega
        · show tn.value = some v'
          rw [htn]
          exact hval
      · refine QRepr.cons a n b nb v' (ls ++ [v]) hgetA hnext hlt ?_ hval (ih hq')
        rw [snoc_read_other _ _ (getD_some_lt hgetb) hbt]
        exact hgetb

theorem qlast_snoc {T : Type} {heap : List (Option (MSNode T))} {t : Nat}
    {tn : MSNode T} (v : T) (hgt : heap.getD t none = some tn)
    (hnt : tn.next = none) {a t' : Nat} (h : QLast heap a t') :
    t' = t →
    QLast ((heap ++ [some (⟨none, some v⟩ : MSNode T)]).set t
      (some (⟨some heap.length, tn.value⟩ : MSNode T))) a heap.length := by
  induction h with
  | refl a n hget hnext =>
      intro he
      subst he
      have htlen : a < heap.length := getD_some_lt hgt
      have htlen2 : a < (heap ++ [some (⟨none, some v⟩ : MSNode T)]).length := by
        simp
        omega
      have hnew : ((heap ++ [some (⟨none, some v⟩ : MSNode T)]).set a
          (some (⟨some heap.length, tn.value⟩ : MSNode T))).getD heap.length none
          = some (⟨none, some v⟩ : MSNode T) := by
        rw [getD_set_ne _ (Nat.ne_of_lt htlen), getD_append_len]
      exact QLast.step a ⟨some heap.length, tn.value⟩ heap.length heap.length
        (getD_set_self _ htlen2) rfl htlen
        (QLast.refl heap.length ⟨none, some v⟩ hnew rfl)
  | step a n b t2 hget hnext hlt hq ih =>
      intro he
      have hat : a ≠ t := by
        intro he2
        rw [he2, hgt] at hget
        obtain rfl : tn = n := Option.some.inj hget
        rw [hnt] at hnext
        cases hnext
      have hgetA : ((heap ++ [some (⟨none, some v⟩ : MSNode T)]).set t
          (some (⟨some heap.length, tn.value⟩ : MSNode T))).getD a none = some n := by
        rw [snoc_read_other _ _ (getD_some_lt hget) hat]
        exact hget
      exact QLast.step a n b heap.length hgetA hnext hlt (ih he)

theorem msq_init_wf (T : Type) : MSQ.WF (MSQ.St.init T) [] := by
  refine ⟨QRepr.last 0 ⟨none, none⟩ ?_ rfl, QLast.refl 0 ⟨none, none⟩ ?_ rfl⟩ <;>
    simp [MSQ.St.init, List.getD]

theorem msq_enqueue_wf {T : Type} {s : MSQ.St T} {ls : List T}
    (h : MSQ.WF s ls) (v : T) : MSQ.WF (MSQ.enqueue s v) (ls ++ [v]) := by
  obtain ⟨hr, hq⟩ := h
  obtain ⟨tn, hgt, hnt⟩ := qlast_last hq
  have htlen : s.tail < s.heap.length := getD_some_lt hgt
  have hget1 : (s.heap ++ [some (⟨none, some v⟩ : MSNode T)])[s.tail]?.getD none
      = some tn := by
    have := (getD_append_lt (some (⟨none, some v⟩ : MSNode T)) htlen).trans hgt
    simpa [List.getD] using this
  have heq : MSQ.enqueue s v
      = { heap := (s.heap ++ [some (⟨none, some v⟩ : MSNode T)]).set s.tail
            (some (⟨some s.heap.length, tn.value⟩ : MSNode T)),
          head := s.head, tail := s.heap.length } := by
    simp [MSQ.enqueue, MSQ.enqueueLoop, getMSNode, hget1, hnt]
  rw [heq]
  exact ⟨qrepr_snoc v hgt hnt hr hq, qlast_snoc v hgt hnt hq rfl⟩

theorem msq_enqAll_wf {T : Type} {s : MSQ.St T} {ls : List T}
    (h : MSQ.WF s ls) (vs : List T) :
    MSQ.WF (pushAll MSQ.enqueue s vs) (ls ++ vs) := by
  induction vs generalizing s ls with
  | nil => simpa [pushAll]
  | cons v vs ih =>
      have := ih (msq_enqueue_wf h v)
      simpa [pushAll] using this

theorem msq_dequeue_nil {T : Type} {s : MSQ.St T} (h : MSQ.WF s []) (out : T) :
    MSQ.dequeue s out
      = (false, out, s,
         [.loadHead, .setHazard, .loadTail, .loadNext, .recheckHead]) := by
  obtain ⟨hr, _⟩ := h
  obtain ⟨n, hget, hnext⟩ := qrepr_nil_inv hr
  have hget' : s.heap[s.head]?.getD none = some n := by
    simpa [List.getD] using hget
  simp [MSQ.dequeue, MSQ.dequeueLoop, getMSNode, hget', hnext]

theorem msq_dequeue_cons {T : Type} {s : MSQ.St T} {v : T} {ls : List T}
    (h : MSQ.WF s (v :: ls)) (out : T) :
    ∃ b, MSQ.dequeue s out
      = (true, v, { s with head := b },
         [.loadHead, .setHazard, .loadTail, .loadNext, .recheckHead,
          .casHeadSucc, .readValue, .clearHazard, .retireNode])
      ∧ MSQ.WF { s with head := b } ls := by
  obtain ⟨hr, hq⟩ := h
  obtain ⟨n, b, nb, hget, hnext, hlt, hgetb, hval, hrest⟩ := qrepr_cons_inv hr
  obtain ⟨tn, hgt, hnt⟩ := qlast_last hq
  have hne : s.head ≠ s.tail := by
    intro he
    rw [he, hgt] at hget
    obtain rfl : tn = n := Option.some.inj hget
    rw [hnt] at hnext
    cases hnext
  have hg1 : s.heap[s.head]?.getD none = some n := by
    simpa [List.getD] using hget
  have hg2 : s.heap[b]?.getD none = some nb := by
    simpa [List.getD] using hgetb
  refine ⟨b, ?_, hrest, qlast_next hq hget hnext⟩
  simp [MSQ.dequeue, MSQ.dequeueLoop, getMSNode, hg1, hnext, hne, hg2, hval]

theorem msq_drain {T : Type} [Inhabited T] {s : MSQ.St T} {ls : List T}
    (h : MSQ.WF s ls) :
    (runPops MSQ.dequeueB (ls.length + 1) s).1
      = ls.map (fun v => (true, v)) ++ [(false, (default : T))] := by
  induction ls generalizing s with
  | nil =>
      have hd := msq_dequeue_nil h (default : T)
      rw [show ([] : List T).length + 1 = 0 + 1 from rfl, runPops_succ]
      simp [MSQ.dequeueB, hd, runPops]
  | cons v ls ih =>
      obtain ⟨b, heq, hwf⟩ := msq_dequeue_cons h (default : T)
      have heqB : MSQ.dequeueB s (default : T) = (true, v, { s with head := b }) := by
        simp [MSQ.dequeueB, heq]
      rw [show (v :: ls).length + 1 = (ls.length + 1) + 1 from rfl,
          runPops_succ, heqB, ih hwf]
      simp

/-! ## Lemmas about the flat-combining containers (one thread). -/

theorem fc_stackPush_fresh {T : Type} [Inhabited T] (v : T) :
    FC.stackPushP ((FC.St.init T), FC.Thread.fresh) v
      = ({ reqs := [{ op := .NONE, value := v, success := true }], data := [v] },
         { tls := some 0 }) := rfl

theorem fc_stackPush_fresh_reg {T : Type} [Inhabited T] (v : T) :
    FC.Reg (FC.stackPushP ((FC.St.init T), FC.Thread.fresh) v) [v] := by
  rw [fc_stackPush_fresh]
  exact ⟨rfl, ⟨v, true, rfl⟩, rfl⟩

theorem fc_stackPush_reg {T : Type} [Inhabited T] {p : FC.St T × FC.Thread}
    {ds : List T} (h : FC.Reg p ds) (v : T) :
    FC.stackPushP p v
      = ({ reqs := [{ op := .NONE, value := v, success := true }],
           data := ds ++ [v] }, p.2) := by
  rcases p with ⟨s, th⟩
  obtain ⟨htls, ⟨w, b, hreqs⟩, hdata⟩ := h
  dsimp only at htls hreqs hdata
  simp [FC.stackPushP, FC.stackPush, FC.pushOp, FC.get_request, htls, hreqs, hdata,
        FC.combine, FC.combineGo, FC.combineStepStack]

theorem fc_stackPush_reg_reg {T : Type} [Inhabited T] {p : FC.St T × FC.Thread}
    {ds : List T} (h : FC.Reg p ds) (v : T) :
    FC.Reg (FC.stackPushP p v) (ds ++ [v]) := by
  rw [fc_stackPush_reg h v]
  exact ⟨h.1, ⟨v, true, rfl⟩, rfl⟩

theorem fc_stack_pushAll_reg {T : Type} [Inhabited T] {p : FC.St T × FC.Thread}
    {ds : List T} (h : FC.Reg p ds) (vs : List T) :
    FC.Reg (pushAll FC.stackPushP p vs) (ds ++ vs) := by
  induction vs generalizing p ds with
  | nil => simpa [pushAll]
  | cons v vs ih =>
      have := ih (fc_stackPush_reg_reg h v)
      simpa [pushAll] using this

theorem fc_stackPop_reg_nil {T : Type} [Inhabited T] {p : FC.St T × FC.Thread}
    (h : FC.Reg p ([] : List T)) (out : T) :
    ∃ w, FC.stackPopP p out
      = (false, out,
         ({ reqs := [{ op := .NONE, value := w, success := false }], data := [] },
          p.2)) := by
  rcases p with ⟨s, th⟩
  obtain ⟨htls, ⟨w, b, hreqs⟩, hdata⟩ := h
  dsimp only at htls hreqs hdata
  refine ⟨w, ?_⟩
  simp [FC.stackPopP, FC.stackPop, FC.popOp, FC.get_request, htls, hreqs, hdata,
        FC.combine, FC.combineGo, FC.combineStepStack]

theorem fc_stackPop_reg_concat {T : Type} [Inhabited T] {p : FC.St T × FC.Thread}
    {ds : List T} {y : T} (h : FC.Reg p (ds ++ [y])) (out : T) :
    FC.stackPopP p out
      = (true, y,
         ({ reqs := [{ op := .NONE, value := y, success := true }], data := ds },
          p.2)) := by
  rcases p with ⟨s, th⟩
  obtain ⟨htls, ⟨w, b, hreqs⟩, hdata⟩ := h
  dsimp only at htls hreqs hdata
  have hne : (ds ++ [y]).isEmpty = false := by simp
  simp [FC.stackPopP, FC.stackPop, FC.popOp, FC.get_request, htls, hreqs, hdata,
        FC.combine, FC.combineGo, FC.combineStepStack, hne,
        List.getLastD_concat, List.dropLast_concat]

theorem fc_stack_drain {T : Type} [Inhabited T] {p : FC.St T × FC.Thread}
    {ds : List T} (h : FC.Reg p ds) :
    (runPops FC.stackPopP (ds.length + 1) p).1
      = ds.reverse.map (fun v => (true, v)) ++ [(false, (default : T))] := by
  induction ds using List.reverseRecOn generalizing p with
  | nil =>
      obtain ⟨w, heq⟩ := fc_stackPop_reg_nil h (default : T)
      rw [show ([] : List T).length + 1 = 0 + 1 from rfl, runPops_succ, heq]
      simp [runPops]
  | append_singleton ys y ih =>
      have heq := fc_stackPop_reg_concat h (default : T)
      have hreg : FC.Reg
          ({ reqs := [{ op := .NONE, value := y, success := true }], data := ys },
           p.2) ys :=
        ⟨h.1, ⟨y, true, rfl⟩, rfl⟩
      have hlen : (ys ++ [y]).length + 1 = (ys.length + 1) + 1 := by simp
      rw [hlen, runPops_succ, heq, ih hreg]
      simp

theorem fc_queueEnq_fresh {T : Type} [Inhabited T] (v : T) :
    FC.queueEnqP ((FC.St.init T), FC.Thread.fresh) v
      = ({ reqs := [{ op := .NONE, value := v, success := true }], data := [v] },
         { tls := some 0 }) := rfl

theorem fc_queueEnq_fresh_reg {T : Type} [Inhabited T] (v : T) :
    FC.Reg (FC.queueEnqP ((FC.St.init T), FC.Thread.fresh) v) [v] := by
  rw [fc_queueEnq_fresh]
  exact ⟨rfl, ⟨v, true, rfl⟩, rfl⟩

theorem fc_queueEnq_reg {T : Type} [Inhabited T] {p : FC.St T × FC.Thread}
    {ds : List T} (h : FC.Reg p ds) (v : T) :
    FC.queueEnqP p v
      = ({ reqs := [{ op := .NONE, value := v, success := true }],
           data := ds ++ [v] }, p.2) := by
  rcases p with ⟨s, th⟩
  obtain ⟨htls, ⟨w, b, hreqs⟩, hdata⟩ := h
  dsimp only at htls hreqs hdata
  simp [FC.queueEnqP, FC.queueEnq, FC.pushOp, FC.get_request, htls, hreqs, hdata,
        FC.combine, FC.combineGo, FC.combineStepQueue]

theorem fc_queueEnq_reg_reg {T : Type} [Inhabited T] {p : FC.St T × FC.Thread}
    {ds : List T} (h : FC.Reg p ds) (v : T) :
    FC.Reg (FC.queueEnqP p v) (ds ++ [v]) := by
  rw [fc_queueEnq_reg h v]
  exact ⟨h.1, ⟨v, true, rfl⟩, rfl⟩

theorem fc_queue_enqAll_reg {T : Type} [Inhabited T] {p : FC.St T × FC.Thread}
    {ds : List T} (h : FC.Reg p ds) (vs : List T) :
    FC.Reg (pushAll FC.queueEnqP p vs) (ds ++ vs) := by
  induction vs generalizing p ds with
  | nil => simpa [pushAll]
  | cons v vs ih =>
      have := ih (fc_queueEnq_reg_reg h v)
      simpa [pushAll] using this

theorem fc_queueDeq_reg_nil {T : Type} [Inhabited T] {p : FC.St T × FC.Thread}
    (h : FC.Reg p ([] : List T)) (out : T) :
    ∃ w, FC.queueDeqP p out
      = (false, out,
         ({ reqs := [{ op := .NONE, value := w, success := false }], data := [] },
          p.2)) := by
  rcases p with ⟨s, th⟩
  obtain ⟨htls, ⟨w, b, hreqs⟩, hdata⟩ := h
  dsimp only at htls hreqs hdata
  refine ⟨w, ?_⟩
  simp [FC.queueDeqP, FC.queueDeq, FC.popOp, FC.get_request, htls, hreqs, hdata,
        FC.combine, FC.combineGo, FC.combineStepQueue]

theorem fc_queueDeq_reg_cons {T : Type} [Inhabited T] {p : FC.St T × FC.Thread}
    {ds : List T} {v : T} (h : FC.Reg p (v :: ds)) (out : T) :
    FC.queueDeqP p out
      = (true, v,
         ({ reqs := [{ op := .NONE, value := v, success := true }], data := ds },
          p.2)) := by
  rcases p with ⟨s, th⟩
  obtain ⟨htls, ⟨w, b, hreqs⟩, hdata⟩ := h
  dsimp only at htls hreqs hdata
  simp [FC.queueDeqP, FC.queueDeq, FC.popOp, FC.get_request, htls, hreqs, hdata,
        FC.combine, FC.combineGo, FC.combineStepQueue]

theorem fc_queue_drain {T : Type} [Inhabited T] {p : FC.St T × FC.Thread}
    {ds : List T} (h : FC.Reg p ds) :
    (runPops FC.queueDeqP (ds.length + 1) p).1
      = ds.map (fun v => (true, v)) ++ [(false, (default : T))] := by
  induction ds generalizing p with
  | nil =>
      obtain ⟨w, heq⟩ := fc_queueDeq_reg_nil h (default : T)
      rw [show ([] : List T).length + 1 = 0 + 1 from rfl, runPops_succ, heq]
      simp [runPops]
  | cons v ds ih =>
      have heq := fc_queueDeq_reg_cons h (default : T)
      have hreg : FC.Reg
          ({ reqs := [{ op := .NONE, value := v, success := true }], data := ds },
           p.2) ds :=
        ⟨h.1, ⟨v, true, rfl⟩, rfl⟩
      rw [show (v :: ds).length + 1 = (ds.length + 1) + 1 from rfl,
          runPops_succ, heq, ih hreg]
      simp

/-! ## Lemmas about the condition variable model. -/

theorem waitReturn_some {s0 : Nat} :
    ∀ {wakeups : List Nat} {i : Nat}, CV.waitReturn s0 wakeups = some i →
      ∃ v, wakeups.get? i = some v ∧ v ≠ s0 := by
  intro wakeups
  induction wakeups with
  | nil => intro i h; simp [CV.waitReturn] at h
  | cons s rest ih =>
      intro i h
      by_cases hp : CV.waitPred s0 s = true
      · have hi : i = 0 := by
          have : (some 0 : Option Nat) = some i := by
            simpa [CV.waitReturn, hp] using h
          exact (Option.some.inj this).symm
        refine ⟨s, by simp [hi], ?_⟩
        simpa [CV.waitPred] using hp
      · have h' : (CV.waitReturn s0 rest).map (· + 1) = some i := by
          simpa [CV.waitReturn, hp] using h
        rcases Option.map_eq_some'.mp h' with ⟨j, hj, rfl⟩
        rcases ih hj with ⟨v, hv, hvne⟩
        exact ⟨v, by simpa using hv, hvne⟩

/-! ## Lemmas about the Treiber stack. -/

theorem stackRepr_append {T : Type} {heap : List (Option (SNode T))}
    {h : Option Nat} {ls : List T} (x : Option (SNode T))
    (hr : StackRepr heap h ls) : StackRepr (heap ++ [x]) h ls := by
  induction hr with
  | nil => exact .nil
  | cons a n ls hget hb _ ih =>
      exact .cons a n ls
        (by rw [getD_append_lt x (getD_some_lt hget)]; exact hget) hb ih

theorem stackRepr_head_lt {T : Type} {heap : List (Option (SNode T))}
    {a : Nat} {ls : List T} (h : StackRepr heap (some a) ls) : a < heap.length := by
  cases h with
  | cons a n ls hget _ _ => exact getD_some_lt hget

theorem stackRepr_nil_head {T : Type} {heap : List (Option (SNode T))}
    {h : Option Nat} (hr : StackRepr heap h ([] : List T)) : h = none := by
  cases hr
  rfl

theorem stackRepr_set_none {T : Type} {heap : List (Option (SNode T))}
    {h : Option Nat} {ls : List T} {a : Nat} (hr : StackRepr heap h ls)
    (hb : ∀ c, h = some c → c < a) : StackRepr (heap.set a none) h ls := by
  induction hr with
  | nil => exact .nil
  | cons c n ls hget hlt hrest ih =>
      have hca : c < a := hb c rfl
      refine .cons c n ls ?_ hlt (ih ?_)
      · rw [getD_set_ne none (Ne.symm (Nat.ne_of_lt hca))]
        exact hget
      · intro d hd
        exact Nat.lt_trans (hlt d hd) hca

theorem treiber_push_repr {T : Type} {s : Treiber.St T} {ls : List T}
    (h : StackRepr s.heap s.head ls) (v : T) :
    StackRepr (Treiber.push s v).heap (Treiber.push s v).head (v :: ls) := by
  refine .cons s.heap.length ⟨v, s.head⟩ ls (getD_append_len _ _) ?_
    (stackRepr_append _ h)
  intro b hb
  have hsb : s.head = some b := hb
  exact stackRepr_head_lt (hsb ▸ h)

theorem treiber_pop_spec {T : Type} {s : Treiber.St T} {v : T} {ls : List T}
    (h : StackRepr s.heap s.head (v :: ls)) (out : T) :
    ∃ s', Treiber.popB s out = (true, v, s')
      ∧ StackRepr s'.heap s'.head ls ∧ s'.heap = s.heap := by
  cases hh : s.head with
  | none => rw [hh] at h; cases h
  | some a =>
      rw [hh] at h
      cases h with
      | cons a n ls hget hb hrest =>
          have hget' : s.heap[a]?.getD none = some n := by
            simpa [List.getD] using hget
          refine ⟨{ s with head := n.next }, ?_, hrest, rfl⟩
          simp [Treiber.popB, Treiber.pop, hh, getNode, hget']

theorem treiber_drain {T : Type} [Inhabited T] {s : Treiber.St T} {ls : List T}
    (h : StackRepr s.heap s.head ls) :
    (runPops Treiber.popB (ls.length + 1) s).1
      = ls.map (fun v => (true, v)) ++ [(false, (default : T))] := by
  induction ls generalizing s with
  | nil =>
      have hh := stackRepr_nil_head h
      simp [runPops, Treiber.popB, Treiber.pop, hh]
  | cons v ls ih =>
      obtain ⟨s', heq, hrest, _⟩ := treiber_pop_spec h default
      rw [show (v :: ls).length + 1 = (ls.length + 1) + 1 from rfl,
          runPops_succ, heq, ih hrest]
      simp

theorem treiber_pushAll_repr {T : Type} {s : Treiber.St T} {ls : List T}
    (h : StackRepr s.heap s.head ls) (vs : List T) :
    StackRepr (pushAll Treiber.push s vs).heap (pushAll Treiber.push s vs).head
      (vs.reverse ++ ls) := by
  induction vs generalizing s ls with
  | nil => simpa [pushAll]
  | cons v vs ih =>
      have := ih (treiber_push_repr h v)
      simpa [pushAll, List.append_assoc] using this

theorem treiber_init_repr (T : Type) :
    StackRepr (Treiber.St.init T).heap (Treiber.St.init T).head [] := .nil

/-! ## Lemmas about the elimination stack. -/

theorem elim_push_wf {T : Type} {s : Elim.St T} {ls : List T}
    (h : Elim.WF s ls) (v : T) : Elim.WF (Elim.push s v) (v :: ls) := by
  obtain ⟨hr, ha⟩ := h
  refine ⟨?_, ha⟩
  refine .cons s.heap.length ⟨v, s.head⟩ ls (getD_append_len _ _) ?_
    (stackRepr_append _ hr)
  intro b hb
  have hsb : s.head = some b := hb
  exact stackRepr_head_lt (hsb ▸ hr)

theorem elim_pushAll_wf {T : Type} {s : Elim.St T} {ls : List T}
    (h : Elim.WF s ls) (vs : List T) :
    Elim.WF (pushAll Elim.push s vs) (vs.reverse ++ ls) := by
  induction vs generalizing s ls with
  | nil => simpa [pushAll]
  | cons v vs ih =>
      have := ih (elim_push_wf h v)
      simpa [pushAll, List.append_assoc] using this

theorem elim_init_wf (T : Type) : Elim.WF (Elim.St.init T) [] := by
  refine ⟨.nil, ?_⟩
  intro x hx
  exact List.eq_of_mem_replicate hx

theorem tryElimPopGo_all_none {T : Type} (picks : List Nat) (s : Elim.St T) (out : T)
    (h : ∀ x ∈ s.arena, x = none) :
    (Elim.tryElimPopGo picks s out).1 = false
    ∧ (Elim.tryElimPopGo picks s out).2.1 = out
    ∧ (Elim.tryElimPopGo picks s out).2.2.head = s.head
    ∧ (Elim.tryElimPopGo picks s out).2.2.heap = s.heap
    ∧ (∀ x ∈ (Elim.tryElimPopGo picks s out).2.2.arena, x = none) := by
  induction picks generalizing s with
  | nil => exact ⟨rfl, rfl, rfl, rfl, h⟩
  | cons idx rest ih =>
      have hcur : s.arena[idx]?.getD none = none := by
        simpa [List.getD] using getD_all_none h idx
      have := ih { s with arena := s.arena.set idx none } (all_none_set h idx)
      simpa [Elim.tryElimPopGo, hcur] using this

theorem elim_pop_empty {T : Type} {s : Elim.St T} (h : Elim.WF s [])
    (picks : List Nat) (out : T) :
    (Elim.popB picks s out).1 = false ∧ (Elim.popB picks s out).2.1 = out
    ∧ Elim.WF (Elim.popB picks s out).2.2 [] := by
  obtain ⟨hr, ha⟩ := h
  have hh := stackRepr_nil_head hr
  obtain ⟨h1, h2, h3, h4, h5⟩ :=
    tryElimPopGo_all_none (picks.take Elim.ELIM_TRIES) s out ha
  rcases hgo : Elim.tryElimPopGo (picks.take Elim.ELIM_TRIES) s out with ⟨b, o, s1⟩
  rw [hgo] at h1 h2 h3 h4 h5
  have hpop : Elim.popB picks s out = (b, o, s1) := by
    simp [Elim.popB, Elim.pop, hh, hgo]
  rw [hpop]
  have hs1 : s1.head = none := h3.trans hh
  refine ⟨h1, h2, ?_, h5⟩
  rw [show (b, o, s1).2.2 = s1 from rfl, hs1]
  exact .nil

theorem elim_pop_spec {T : Type} {s : Elim.St T} {v : T} {ls : List T}
    (h : Elim.WF s (v :: ls)) (picks : List Nat) (out : T) :
    ∃ s', Elim.popB picks s out = (true, v, s') ∧ Elim.WF s' ls := by
  obtain ⟨hr, ha⟩ := h
  cases hh : s.head with
  | none => rw [hh] at hr; cases hr
  | some a =>
      rw [hh] at hr
      cases hr with
      | cons a n ls hget hb hrest =>
          have hget' : s.heap[a]?.getD none = some n := by
            simpa [List.getD] using hget
          refine ⟨{ s with head := n.next, heap := s.heap.set a none }, ?_, ?_, ha⟩
          · simp [Elim.popB, Elim.pop, hh, getNode, hget']
          · exact stackRepr_set_none hrest hb

theorem elim_drain {T : Type} [Inhabited T] (picks : List Nat)
    {s : Elim.St T} {ls : List T} (h : Elim.WF s ls) :
    (runPops (Elim.popB picks) (ls.length + 1) s).1
      = ls.map (fun v => (true, v)) ++ [(false, (default : T))] := by
  induction ls generalizing s with
  | nil =>
      obtain ⟨h1, h2, _⟩ := elim_pop_empty h picks (default : T)
      rw [show ([] : List T).length + 1 = 0 + 1 from rfl, runPops_succ, h1, h2]
      simp [runPops]
  | cons v ls ih =>
      obtain ⟨s', heq, hrest⟩ := elim_pop_spec h picks default
      rw [show (v :: ls).length + 1 = (ls.length + 1) + 1 from rfl,
          runPops_succ, heq, ih hrest]
      simp

theorem waitReturn_all_same {s0 : Nat} :
    ∀ {wakeups : List Nat}, (∀ v ∈ wakeups, v = s0) →
      CV.waitReturn s0 wakeups = none := by
  intro wakeups
  induction wakeups with
  | nil => intro _; rfl
  | cons s rest ih =>
      intro h
      have hs : s = s0 := h s (by simp)
      have := ih (fun v hv => h v (by simp [hv]))
      simp [CV.waitReturn, CV.waitPred, hs, this]

/-! ## The claims. -/

/-- C1 counterexample: on the queue holding the single element 10, the
dequeue trace contains both the successful head-CAS and the read of
`X.value`, and the read does NOT precede the CAS — refuting the claim that
the value is copied into a local before the head-CAS. -/
theorem C1_read_before_cas_refuted :
    Event.casHeadSucc ∈ (MSQ.dequeue (MSQ.enqueue (MSQ.St.init Int) 10) 0).2.2.2
    ∧ Event.readValue ∈ (MSQ.dequeue (MSQ.enqueue (MSQ.St.init Int) 10) 0).2.2.2
    ∧ ¬ ((MSQ.dequeue (MSQ.enqueue (MSQ.St.init Int) 10) 0).2.2.2.indexOf
          Event.readValue
        < (MSQ.dequeue (MSQ.enqueue (MSQ.St.init Int) 10) 0).2.2.2.indexOf
          Event.casHeadSucc) := by
  decide

/-- C1 amended: in MSQueue::dequeue, when the successor X of the head is
non-null and the head differs from tail (any well-formed non-empty queue),
the value `X.value` is copied into the out variable only AFTER the CAS that
advances head from H to X: the trace orders the successful head-CAS
strictly before the value read. -/
theorem C1_value_read_after_head_cas {s : MSQ.St Int} {v : Int} {ls : List Int}
    (h : MSQ.WF s (v :: ls)) (out : Int) :
    Event.casHeadSucc ∈ (MSQ.dequeue s out).2.2.2
    ∧ Event.readValue ∈ (MSQ.dequeue s out).2.2.2
    ∧ (MSQ.dequeue s out).2.2.2.indexOf Event.casHeadSucc
        < (MSQ.dequeue s out).2.2.2.indexOf Event.readValue := by
  obtain ⟨b, heq, _⟩ := msq_dequeue_cons h out
  rw [heq]
  dsimp only
  decide

/-- C1 witness: the amended statement at the concrete one-element queue. -/
theorem C1_value_read_after_head_cas_witness :
    Event.casHeadSucc ∈ (MSQ.dequeue (MSQ.enqueue (MSQ.St.init Int) 10) 7).2.2.2
    ∧ Event.readValue ∈ (MSQ.dequeue (MSQ.enqueue (MSQ.St.init Int) 10) 7).2.2.2
    ∧ (MSQ.dequeue (MSQ.enqueue (MSQ.St.init Int) 10) 7).2.2.2.indexOf
          Event.casHeadSucc
        < (MSQ.dequeue (MSQ.enqueue (MSQ.St.init Int) 10) 7).2.2.2.indexOf
          Event.readValue :=
  C1_value_read_after_head_cas (msq_enqueue_wf (msq_init_wf Int) 10) 7

/-- C2: the claim fails on the source.  `tls_req_` is a static member of
the class template, one per thread PER ELEMENT TYPE, shared by all
instances.  With two FlatCombiningStack of int instances A and B and one
thread: push(1) on A registers the record in A's list; push(2) on B then
reuses the same record, which B's publication list does not contain, so
B's combine pass never serves it — B's sequence stays empty, B's list
stays empty, and the record is left permanently pending with op PUSH
(which A's next combiner would wrongly apply to A). -/
theorem C2_second_instance_push_lost :
    (FCWorld.pushB (FCWorld.pushA (FCWorld.World.init Int) 1) 2).bdata = []
    ∧ (FCWorld.pushB (FCWorld.pushA (FCWorld.World.init Int) 1) 2).blist = []
    ∧ (FCWorld.pushB (FCWorld.pushA (FCWorld.World.init Int) 1) 2).adata = [1]
    ∧ (FCWorld.pushB (FCWorld.pushA (FCWorld.World.init Int) 1) 2).store
        = [{ op := .PUSH, value := 2, success := true }] := by
  decide

/-- C3: the claim fails on the source.  On a one-element EliminationStack
the central-path pop emits no hazard-pointer store, no head re-validation
and no retire; it dereferences `old_head->next` unprotected and deletes
the unlinked node immediately.  The repository's own TreiberStack::pop on
the same shape does publish the hazard, re-validate, and retire instead of
deleting. -/
theorem C3_elim_pop_skips_hazard_protocol :
    Event.setHazard ∉ (Elim.pop [] (Elim.push (Elim.St.init Int) 5) 0).2.2.2
    ∧ Event.recheckHead ∉ (Elim.pop [] (Elim.push (Elim.St.init Int) 5) 0).2.2.2
    ∧ Event.retireNode ∉ (Elim.pop [] (Elim.push (Elim.St.init Int) 5) 0).2.2.2
    ∧ Event.deleteNode ∈ (Elim.pop [] (Elim.push (Elim.St.init Int) 5) 0).2.2.2
    ∧ Event.loadNext ∈ (Elim.pop [] (Elim.push (Elim.St.init Int) 5) 0).2.2.2
    ∧ Event.setHazard ∈ (Treiber.pop (Treiber.push (Treiber.St.init Int) 5) 0).2.2.2
    ∧ Event.recheckHead ∈ (Treiber.pop (Treiber.push (Treiber.St.init Int) 5) 0).2.2.2
    ∧ Event.retireNode ∈ (Treiber.pop (Treiber.push (Treiber.St.init Int) 5) 0).2.2.2
    ∧ Event.deleteNode ∉ (Treiber.pop (Treiber.push (Treiber.St.init Int) 5) 0).2.2.2 := by
  decide

/-- C4: RetiredList::retire appends the node to the retired list and
invokes scan exactly when the appended list's size reaches the threshold
of 64; a non-forced scan deletes precisely the retired nodes absent from
the snapshot of non-null hazard `ptr` values and keeps the present ones; a
forced scan deletes every retired node. -/
theorem C4_retire_scan_semantics :
    (∀ (recs : List (Option Nat)) (retired : List Nat) (node : Nat),
        ((HP.retire recs retired node).2.2 = true ↔ HP.threshold ≤ retired.length + 1))
    ∧ (∀ (recs : List (Option Nat)) (retired : List Nat) (node : Nat),
        (HP.retire recs retired node).2.2 = false →
          (HP.retire recs retired node).1 = retired ++ [node]
          ∧ (HP.retire recs retired node).2.1 = [])
    ∧ (∀ (recs : List (Option Nat)) (retired : List Nat) (node : Nat),
        (HP.retire recs retired node).2.2 = true →
          (HP.retire recs retired node).1 = (HP.scan false recs (retired ++ [node])).1
          ∧ (HP.retire recs retired node).2.1 = (HP.scan false recs (retired ++ [node])).2)
    ∧ (∀ (recs : List (Option Nat)) (retired : List Nat) (p : Nat),
        (p ∈ (HP.scan false recs retired).2
          ↔ p ∈ retired ∧ p ∉ HP.collect_hazard_pointers recs))
    ∧ (∀ (recs : List (Option Nat)) (retired : List Nat) (p : Nat),
        (p ∈ (HP.scan false recs retired).1
          ↔ p ∈ retired ∧ p ∈ HP.collect_hazard_pointers recs))
    ∧ (∀ (recs : List (Option Nat)) (retired : List Nat),
        (HP.scan true recs retired).1 = [] ∧ (HP.scan true recs retired).2 = retired)
    ∧ HP.threshold = 64 := by
  refine ⟨?_, ?_, ?_, ?_, ?_, ?_, rfl⟩
  · intro recs retired node
    by_cases hc : HP.threshold ≤ retired.length + 1 <;> simp [HP.retire, hc]
  · intro recs retired node
    by_cases hc : HP.threshold ≤ retired.length + 1 <;> simp [HP.retire, hc]
  · intro recs retired node
    by_cases hc : HP.threshold ≤ retired.length + 1 <;> simp [HP.retire, HP.scan, hc]
  · intro recs retired p
    simp [HP.scan, HP.is_hazard, List.mem_filter, List.elem_iff]
  · intro recs retired p
    simp [HP.scan, HP.is_hazard, List.mem_filter, List.elem_iff]
  · intro recs retired
    simp [HP.scan]

/-- C5: every stack variant (coarse, Treiber, elimination, flat-combining)
run by one thread is LIFO: push 1, 2, 3 then pop three times yields 3, 2, 1
and a fourth pop reports empty; in general draining after pushing `vs`
returns exactly `vs.reverse` followed by one failed pop. -/
theorem C5_stacks_lifo :
    ((runPops SGLStack.pop 4 (pushAll SGLStack.push (SGLStack.mk []) [1, 2, 3])).1
        = [(true, (3 : Int)), (true, 2), (true, 1), (false, default)])
    ∧ ((runPops Treiber.popB 4 (pushAll Treiber.push (Treiber.St.init Int) [1, 2, 3])).1
        = [(true, 3), (true, 2), (true, 1), (false, default)])
    ∧ ((runPops (Elim.popB []) 4 (pushAll Elim.push (Elim.St.init Int) [1, 2, 3])).1
        = [(true, 3), (true, 2), (true, 1), (false, default)])
    ∧ ((runPops FC.stackPopP 4
          (pushAll FC.stackPushP (FC.St.init Int, FC.Thread.fresh) [1, 2, 3])).1
        = [(true, 3), (true, 2), (true, 1), (false, default)])
    ∧ (∀ vs : List Int,
        (runPops SGLStack.pop (vs.length + 1) (pushAll SGLStack.push (SGLStack.mk []) vs)).1
          = vs.reverse.map (fun v => (true, v)) ++ [(false, default)])
    ∧ (∀ vs : List Int,
        (runPops Treiber.popB (vs.length + 1) (pushAll Treiber.push (Treiber.St.init Int) vs)).1
          = vs.reverse.map (fun v => (true, v)) ++ [(false, default)])
    ∧ (∀ (picks : List Nat) (vs : List Int),
        (runPops (Elim.popB picks) (vs.length + 1) (pushAll Elim.push (Elim.St.init Int) vs)).1
          = vs.reverse.map (fun v => (true, v)) ++ [(false, default)])
    ∧ (∀ vs : List Int,
        (runPops FC.stackPopP (vs.length + 1)
            (pushAll FC.stackPushP (FC.St.init Int, FC.Thread.fresh) vs)).1
          = vs.reverse.map (fun v => (true, v)) ++ [(false, default)]) := by
  refine ⟨by decide, by decide, by decide, by decide, ?_, ?_, ?_, ?_⟩
  · intro vs
    have h1 : pushAll SGLStack.push (SGLStack.mk []) vs = SGLStack.mk vs := by
      simpa using sgl_stack_pushAll [] vs
    rw [h1]
    exact sgl_stack_drain vs
  · intro vs
    have hr := treiber_pushAll_repr (treiber_init_repr Int) vs
    rw [List.append_nil] at hr
    have := treiber_drain hr
    simpa [List.length_reverse] using this
  · intro picks vs
    have hr := elim_pushAll_wf (elim_init_wf Int) vs
    rw [List.append_nil] at hr
    have := elim_drain picks hr
    simpa [List.length_reverse] using this
  · intro vs
    cases vs with
    | nil => decide
    | cons v vs =>
        have hreg := fc_stack_pushAll_reg (fc_stackPush_fresh_reg v) vs
        have := fc_stack_drain hreg
        simpa [pushAll, List.length_reverse] using this

/-- C6: every queue variant (coarse, Michael–Scott, flat-combining) run by
one thread is FIFO: enqueue 10, 20, 30 then dequeue three times yields 10,
20, 30 and a fourth dequeue reports empty; in general draining after
enqueuing `vs` returns exactly `vs` followed by one failed dequeue. -/
theorem C6_queues_fifo :
    ((runPops SGLQueue.dequeue 4 (pushAll SGLQueue.enqueue (SGLQueue.mk []) [10, 20, 30])).1
        = [(true, (10 : Int)), (true, 20), (true, 30), (false, default)])
    ∧ ((runPops MSQ.dequeueB 4 (pushAll MSQ.enqueue (MSQ.St.init Int) [10, 20, 30])).1
        = [(true, 10), (true, 20), (true, 30), (false, default)])
    ∧ ((runPops FC.queueDeqP 4
          (pushAll FC.queueEnqP (FC.St.init Int, FC.Thread.fresh) [10, 20, 30])).1
        = [(true, 10), (true, 20), (true, 30), (false, default)])
    ∧ (∀ vs : List Int,
        (runPops SGLQueue.dequeue (vs.length + 1) (pushAll SGLQueue.enqueue (SGLQueue.mk []) vs)).1
          = vs.map (fun v => (true, v)) ++ [(false, default)])
    ∧ (∀ vs : List Int,
        (runPops MSQ.dequeueB (vs.length + 1) (pushAll MSQ.enqueue (MSQ.St.init Int) vs)).1
          = vs.map (fun v => (true, v)) ++ [(false, default)])
    ∧ (∀ vs : List Int,
        (runPops FC.queueDeqP (vs.length + 1)
            (pushAll FC.queueEnqP (FC.St.init Int, FC.Thread.fresh) vs)).1
          = vs.map (fun v => (true, v)) ++ [(false, default)]) := by
  refine ⟨by decide, by decide, by decide, ?_, ?_, ?_⟩
  · intro vs
    have h1 : pushAll SGLQueue.enqueue (SGLQueue.mk []) vs = SGLQueue.mk vs := by
      simpa using sgl_queue_pushAll [] vs
    rw [h1]
    exact sgl_queue_drain vs
  · intro vs
    have hr := msq_enqAll_wf (msq_init_wf Int) vs
    rw [List.nil_append] at hr
    exact msq_drain hr
  · intro vs
    cases vs with
    | nil => decide
    | cons v vs =>
        have hreg := fc_queue_enqAll_reg (fc_queueEnq_fresh_reg v) vs
        have := fc_queue_drain hreg
        simpa [pushAll] using this

/-- C7: notify_one and notify_all each increment `seq` by exactly one (so
`seq` is monotone), and wait without a predicate — which samples `seq`
into s0 on entry and blocks on the underlying CV with the predicate
`seq != s0` — returns only at a wakeup whose observed `seq` differs from
s0; while every observation still equals the entry sample (spurious
wakeups included) it does not return.  Concretely, two spurious wakeups at
seq = 5 are skipped and the wait returns at the third wakeup seeing 6. -/
theorem C7_cv_notify_and_wait :
    (∀ s : Nat, CV.notify_one s = s + 1)
    ∧ (∀ s : Nat, CV.notify_all s = s + 1)
    ∧ (∀ s : Nat, s ≤ CV.notify_one s ∧ s ≤ CV.notify_all s)
    ∧ (∀ (s0 : Nat) (wakeups : List Nat) (i : Nat),
        CV.waitReturn s0 wakeups = some i →
          ∃ v, wakeups.get? i = some v ∧ v ≠ s0)
    ∧ (∀ (s0 : Nat) (wakeups : List Nat),
        (∀ v ∈ wakeups, v = s0) → CV.waitReturn s0 wakeups = none)
    ∧ CV.waitReturn 5 [5, 5, 6] = some 2 :=
  ⟨fun _ => rfl, fun _ => rfl, fun s => ⟨Nat.le_succ s, Nat.le_succ s⟩,
   fun _ _ _ h => waitReturn_some h,
   fun _ _ h => waitReturn_all_same h, by decide⟩

theorem tryElimPopGo_false_out {T : Type} :
    ∀ (picks : List Nat) (s : Elim.St T) (out : T),
      (Elim.tryElimPopGo picks s out).1 = false →
      (Elim.tryElimPopGo picks s out).2.1 = out := by
  intro picks
  induction picks with
  | nil => intro s out _; rfl
  | cons idx rest ih =>
      intro s out
      cases hc : s.arena.getD idx none with
      | none =>
          have hc' : s.arena[idx]?.getD none = none := by simpa [List.getD] using hc
          intro h
          have := ih { s with arena := s.arena.set idx none } out
          simp [Elim.tryElimPopGo, hc'] at h ⊢
          exact this h
      | some a =>
          have hc' : s.arena[idx]?.getD none = some a := by simpa [List.getD] using hc
          cases hg : getNode s.heap a with
          | none => simp [Elim.tryElimPopGo, hc', hg]
          | some n => simp [Elim.tryElimPopGo, hc', hg]

theorem elim_pop_false_out {T : Type} (picks : List Nat) (s : Elim.St T) (out : T) :
    (Elim.popB picks s out).1 = false → (Elim.popB picks s out).2.1 = out := by
  cases hh : s.head with
  | none =>
      intro h
      have := tryElimPopGo_false_out (picks.take Elim.ELIM_TRIES) s out
      simp [Elim.popB, Elim.pop, hh] at h ⊢
      exact this h
  | some a =>
      cases hg : getNode s.heap a with
      | none => simp [Elim.popB, Elim.pop, hh, hg]
      | some n => simp [Elim.popB, Elim.pop, hh, hg]

theorem msq_dequeueLoop_false_out {T : Type} :
    ∀ (fuel : Nat) (s : MSQ.St T) (out : T),
      (MSQ.dequeueLoop fuel s out).1 = false →
      (MSQ.dequeueLoop fuel s out).2.1 = out := by
  intro fuel
  induction fuel with
  | zero => intro s out _; rfl
  | succ n ih =>
      intro s out
      cases hg : getMSNode s.heap s.head with
      | none => simp [MSQ.dequeueLoop, hg]
      | some hn =>
          cases hx : hn.next with
          | none => simp [MSQ.dequeueLoop, hg, hx]
          | some x =>
              by_cases ht : s.head = s.tail
              · rcases hin : MSQ.dequeueLoop n { s with tail := x } out with ⟨b, o, s', tr⟩
                have h1 : (MSQ.dequeueLoop (n + 1) s out).1 = b := by
                  simp only [MSQ.dequeueLoop, hg, hx]
                  rw [if_pos ht]
                  simp [hin]
                have h2 : (MSQ.dequeueLoop (n + 1) s out).2.1 = o := by
                  simp only [MSQ.dequeueLoop, hg, hx]
                  rw [if_pos ht]
                  simp [hin]
                intro h
                rw [h2]
                have := ih { s with tail := x } out
                rw [hin] at this
                exact this (by rw [h1] at h; exact h)
              · cases hgx : getMSNode s.heap x with
                | none => simp [MSQ.dequeueLoop, hg, hx, ht, hgx]
                | some xn =>
                    cases hv : xn.value with
                    | none => simp [MSQ.dequeueLoop, hg, hx, ht, hgx, hv]
                    | some v => simp [MSQ.dequeueLoop, hg, hx, ht, hgx, hv]

/-- C8: on every container variant a pop or dequeue of the empty container
returns false with no exception possible (the models are total functions
returning an ordinary Bool), and this also holds of any drained well-formed
state; for the flat-combining containers the combiner writes success :=
(sequence non-empty at the moment it visits the POP/DEQ record), while a
PUSH/ENQ record's pre-set success := true is never overwritten. -/
theorem C8_empty_pop_returns_false :
    (∀ out : Int, SGLStack.pop (SGLStack.mk []) out = (false, out, SGLStack.mk []))
    ∧ (∀ out : Int, SGLQueue.dequeue (SGLQueue.mk []) out = (false, out, SGLQueue.mk []))
    ∧ (∀ out : Int,
        Treiber.popB (Treiber.St.init Int) out = (false, out, Treiber.St.init Int))
    ∧ (∀ (picks : List Nat) (out : Int),
        (Elim.popB picks (Elim.St.init Int) out).1 = false
        ∧ (Elim.popB picks (Elim.St.init Int) out).2.1 = out)
    ∧ (∀ out : Int,
        MSQ.dequeueB (MSQ.St.init Int) out = (false, out, MSQ.St.init Int))
    ∧ (∀ out : Int, (FC.stackPopP (FC.St.init Int, FC.Thread.fresh) out).1 = false
        ∧ (FC.stackPopP (FC.St.init Int, FC.Thread.fresh) out).2.1 = out)
    ∧ (∀ out : Int, (FC.queueDeqP (FC.St.init Int, FC.Thread.fresh) out).1 = false
        ∧ (FC.queueDeqP (FC.St.init Int, FC.Thread.fresh) out).2.1 = out)
    ∧ (∀ (s : Treiber.St Int) (out : Int),
        StackRepr s.heap s.head [] → Treiber.popB s out = (false, out, s))
    ∧ (∀ (s : MSQ.St Int) (out : Int),
        MSQ.WF s [] → MSQ.dequeueB s out = (false, out, s))
    ∧ (∀ (p : FC.St Int × FC.Thread) (out : Int), FC.Reg p [] →
        (FC.stackPopP p out).1 = false ∧ (FC.stackPopP p out).2.1 = out)
    ∧ (∀ (p : FC.St Int × FC.Thread) (out : Int), FC.Reg p [] →
        (FC.queueDeqP p out).1 = false ∧ (FC.queueDeqP p out).2.1 = out)
    ∧ (∀ (w : Int) (b : Bool) (data : List Int),
        (FC.combineStepStack { op := .POP, value := w, success := b } data).1.success
          = !data.isEmpty)
    ∧ (∀ (w : Int) (b : Bool) (data : List Int),
        (FC.combineStepQueue { op := .POP, value := w, success := b } data).1.success
          = !data.isEmpty)
    ∧ (∀ (w : Int) (data : List Int),
        (FC.combineStepStack { op := .PUSH, value := w, success := true } data).1.success
          = true)
    ∧ (∀ (w : Int) (data : List Int),
        (FC.combineStepQueue { op := .PUSH, value := w, success := true } data).1.success
          = true) := by
  refine ⟨fun _ => rfl, fun _ => rfl, fun _ => rfl, ?_, fun _ => rfl, ?_, ?_,
          ?_, ?_, ?_, ?_, ?_, ?_, fun _ _ => rfl, fun _ _ => rfl⟩
  · intro picks out
    have h := elim_pop_empty (elim_init_wf Int) picks out
    exact ⟨h.1, h.2.1⟩
  · intro out
    exact ⟨rfl, rfl⟩
  · intro out
    exact ⟨rfl, rfl⟩
  · intro s out h
    have hh := stackRepr_nil_head h
    simp [Treiber.popB, Treiber.pop, hh]
  · intro s out h
    have := msq_dequeue_nil h out
    simp [MSQ.dequeueB, this]
  · intro p out h
    obtain ⟨w, heq⟩ := fc_stackPop_reg_nil h out
    rw [heq]
    exact ⟨rfl, rfl⟩
  · intro p out h
    obtain ⟨w, heq⟩ := fc_queueDeq_reg_nil h out
    rw [heq]
    exact ⟨rfl, rfl⟩
  · intro w b data
    cases data <;> rfl
  · intro w b data
    cases data <;> rfl

/-- C9: EliminationStack::empty() is true exactly when the central head is
null and all 16 arena slots are null; a node parked in a slot by an
in-flight eliminated push (the successful slot-CAS of try_elim_push) makes
empty() report false even though the central Treiber list is empty. -/
theorem C9_elim_empty_iff :
    (∀ s : Elim.St Int,
        (Elim.isEmpty s = true ↔ (s.head = none ∧ ∀ x ∈ s.arena, x = none)))
    ∧ (Elim.St.init Int).arena.length = 16
    ∧ Elim.ELIM_ARRAY_SIZE = 16
    ∧ (Elim.offerPush (Elim.St.init Int) 3 5).head = none
    ∧ Elim.isEmpty (Elim.offerPush (Elim.St.init Int) 3 5) = false := by
  refine ⟨?_, by decide, rfl, rfl, by decide⟩
  intro s
  constructor
  · intro h
    by_cases hh : s.head = none
    · refine ⟨hh, ?_⟩
      intro x hx
      simp [Elim.isEmpty, hh, List.all_eq_true] at h
      exact h x hx
    · simp [Elim.isEmpty, hh] at h
  · rintro ⟨hh, ha⟩
    simp [Elim.isEmpty, hh, List.all_eq_true]
    intro x hx
    exact ha x hx

/-- C10: for every container variant, whenever pop or dequeue returns
false the caller's out variable is returned unchanged — the value slot is
written only on the success path.  Stated over arbitrary model states. -/
theorem C10_failed_pop_leaves_out_unchanged :
    (∀ (s : SGLStack Int) (out : Int),
        (SGLStack.pop s out).1 = false → (SGLStack.pop s out).2.1 = out)
    ∧ (∀ (s : SGLQueue Int) (out : Int),
        (SGLQueue.dequeue s out).1 = false → (SGLQueue.dequeue s out).2.1 = out)
    ∧ (∀ (s : Treiber.St Int) (out : Int),
        (Treiber.popB s out).1 = false → (Treiber.popB s out).2.1 = out)
    ∧ (∀ (picks : List Nat) (s : Elim.St Int) (out : Int),
        (Elim.popB picks s out).1 = false → (Elim.popB picks s out).2.1 = out)
    ∧ (∀ (s : MSQ.St Int) (out : Int),
        (MSQ.dequeueB s out).1 = false → (MSQ.dequeueB s out).2.1 = out)
    ∧ (∀ (p : FC.St Int × FC.Thread) (out : Int),
        (FC.stackPopP p out).1 = false → (FC.stackPopP p out).2.1 = out)
    ∧ (∀ (p : FC.St Int × FC.Thread) (out : Int),
        (FC.queueDeqP p out).1 = false → (FC.queueDeqP p out).2.1 = out) := by
  refine ⟨?_, ?_, ?_, ?_, ?_, ?_, ?_⟩
  · intro s out
    cases hl : s.data.getLast? <;> simp [SGLStack.pop, hl]
  · intro s out
    cases hl : s.data <;> simp [SGLQueue.dequeue, hl]
  · intro s out
    cases hh : s.head with
    | none => simp [Treiber.popB, Treiber.pop, hh]
    | some a =>
        cases hg : getNode s.heap a with
        | none => simp [Treiber.popB, Treiber.pop, hh, hg]
        | some n => simp [Treiber.popB, Treiber.pop, hh, hg]
  · intro picks s out
    exact elim_pop_false_out picks s out
  · intro s out
    exact msq_dequeueLoop_false_out (s.heap.length + 1) s out
  · intro p out
    rcases p with ⟨s, th⟩
    cases hth : th.tls <;>
      · simp only [FC.stackPopP, FC.stackPop, FC.popOp, FC.get_request, hth]
        split <;> simp
  · intro p out
    rcases p with ⟨s, th⟩
    cases hth : th.tls <;>
      · simp only [FC.queueDeqP, FC.queueDeq, FC.popOp, FC.get_request, hth]
        split <;> simp

end CC
